import Mathlib

/-!
Verification of the symmetric cipher context (`src/openssl/src/cipher_ctx.rs`)
and DSA key construction (`src/openssl/src/dsa.rs`) of this repository.

The Rust layer (argument checks via `assert!` and the `Vec` buffer
management) is translated directly from the source.  The cryptographic
primitive engine (the `EVP_*` calls) is not part of `src/`; its behaviour
is modelled from the specification's engine boundary (spec §4.1, §6): a
CBC-mode block-cipher engine with PKCS#7 padding parameterised over the
keyed block permutation, plus a separate AEAD tag-verification model.

Conventions: a byte is a `Nat` (values below 256 where it matters, `xor`
never leaves that range); Rust's `assert!`/`assert_eq!` failures (process
aborts) are `CallResult.panicked`; recoverable `ErrorStack` errors are
`CallResult.engineErr`.
-/

/-- Outcome of a call into the wrapper: a fatal contract violation
(Rust `assert!`/panic), a recoverable engine error (`ErrorStack`), or
success carrying the result. -/
inductive CallResult (α : Type) where
  | panicked : CallResult α
  | engineErr : CallResult α
  | ok : α → CallResult α
deriving DecidableEq, Repr

/-- Whether a call returned successfully. -/
def CallResult.isOk {α : Type} : CallResult α → Bool
  | .ok _ => true
  | _ => false

/-- Pointwise xor of two byte lists (length of the shorter). -/
def zipXor (a b : List Nat) : List Nat := List.zipWith Nat.xor a b

/-- Rust `Vec::resize(n, v)`: truncates to `n` elements or extends with `v`. -/
def resizeList (l : List Nat) (n : Nat) (v : Nat) : List Nat :=
  if n ≤ l.length then l.take n else l ++ List.replicate (n - l.length) v

/-- Writing `w` into the front of buffer `s` (an in-place prefix write). -/
def overwrite (w s : List Nat) : List Nat := w ++ s.drop w.length

/-- Fuelled block splitter: removes `bs`-byte blocks from the front while at
least `bs` bytes remain.  `l.length` fuel always suffices. -/
def takeBlocksF (bs : Nat) : Nat → List Nat → List (List Nat) × List Nat
  | 0, l => ([], l)
  | fuel + 1, l =>
    if 0 < bs ∧ bs ≤ l.length then
      let r := takeBlocksF bs fuel (l.drop bs)
      (l.take bs :: r.1, r.2)
    else ([], l)

/-- Splits a byte list into maximal leading full blocks of size `bs` plus the
remainder (shorter than `bs`). -/
def takeBlocks (bs : Nat) (l : List Nat) : List (List Nat) × List Nat :=
  takeBlocksF bs l.length l

/-- CBC encryption of a list of full blocks under block permutation `E`,
starting from chaining value `chain`; returns the ciphertext blocks and the
final chaining value. -/
def cbcEnc (E : List Nat → List Nat) : List Nat → List (List Nat) → List (List Nat) × List Nat
  | chain, [] => ([], chain)
  | chain, b :: rest =>
    let c := E (zipXor chain b)
    let r := cbcEnc E c rest
    (c :: r.1, r.2)

/-- CBC decryption of a list of full ciphertext blocks under block inverse
`D`, starting from chaining value `chain`; returns the plaintext blocks and
the final chaining value. -/
def cbcDec (D : List Nat → List Nat) : List Nat → List (List Nat) → List (List Nat) × List Nat
  | chain, [] => ([], chain)
  | chain, c :: rest =>
    let p := zipXor chain (D c)
    let r := cbcDec D c rest
    (p :: r.1, r.2)

/-- PKCS#7 padding of a partial block up to block size `bs`
(always appends between 1 and `bs` bytes). -/
def pkcs7Pad (bs : Nat) (l : List Nat) : List Nat :=
  l ++ List.replicate (bs - l.length) (bs - l.length)

/-- PKCS#7 unpadding: validates and strips the padding, `none` on invalid
padding. -/
def pkcs7Unpad (bs : Nat) (p : List Nat) : Option (List Nat) :=
  match p.getLast? with
  | none => none
  | some n =>
    if 1 ≤ n ∧ n ≤ bs ∧ n ≤ p.length ∧ (p.drop (p.length - n)).all (· = n) then
      some (p.take (p.length - n))
    else none

/-- Immutable algorithm metadata (spec §3 CipherDescriptor; the Rust
`CipherRef` accessors `block_size`, `key_length`, `iv_length`). -/
structure CipherDesc where
  blockSize : Nat
  keyLength : Nat
  ivLength : Nat
deriving DecidableEq, Repr

/-- Direction of an initialized context (spec §3: `Encrypting | Decrypting`;
`Uninitialized` is `none` in the context). -/
inductive Direction where
  | encrypting : Direction
  | decrypting : Direction
deriving DecidableEq, Repr

/-- The keyed block permutation the engine derives from the key at init time
(spec §6 primitive-engine boundary): forward and inverse block maps. -/
structure Prim where
  E : List Nat → List Nat
  D : List Nat → List Nat

/-- The cipher context (`CipherCtx` of `cipher_ctx.rs` together with the
engine-internal state the spec ascribes to it: chaining value and buffered
partial block). -/
structure CipherCtx where
  cipher : Option CipherDesc
  direction : Option Direction
  key : List Nat
  chain : List Nat
  buf : List Nat
  padding : Bool
deriving DecidableEq, Repr

/-- A freshly constructed context (`CipherCtx::new`): no cipher, no
direction, padding enabled by default. -/
def CipherCtx.new : CipherCtx :=
  { cipher := none, direction := none, key := [], chain := [], buf := [], padding := true }

/-- Modelled from the spec: the engine commit of `EVP_EncryptInit_ex` /
`EVP_DecryptInit_ex` (absent from `src/`): binds the cipher if one is given
(keeping a previously bound one otherwise), sets the direction, loads the key
and IV (the engine reads exactly the descriptor's key/IV length bytes), and
resets the partial-block buffer. -/
def engineCipherInit (ctx : CipherCtx) (dir : Direction) (type_ : Option CipherDesc)
    (key iv : Option (List Nat)) : CipherCtx :=
  let cipher := type_.or ctx.cipher
  { cipher := cipher
    direction := some dir
    key := match key, cipher with
           | some k, some c => k.take c.keyLength
           | _, _ => ctx.key
    chain := match iv, cipher with
           | some v, some c => v.take c.ivLength
           | _, _ => ctx.chain
    buf := []
    padding := ctx.padding }

/-- The IV-checking half of `CipherCtxRef::cipher_init`
(`cipher_ctx.rs:154-157`): if an IV is supplied, the effective IV length is
taken from the cipher passed in this call, else from the bound cipher
(`self.iv_length()` panics through `assert_cipher` when none is bound), and
`assert!(iv_len <= iv.len())` aborts when the buffer is short. -/
def cipher_init_iv (ctx : CipherCtx) (dir : Direction) (type_ : Option CipherDesc)
    (key iv : Option (List Nat)) : CallResult CipherCtx :=
  match iv, (type_.or ctx.cipher).map CipherDesc.ivLength with
  | some _, none => .panicked
  | some v, some il =>
    if il ≤ v.length then .ok (engineCipherInit ctx dir type_ key iv) else .panicked
  | none, _ => .ok (engineCipherInit ctx dir type_ key iv)

/-- `CipherCtxRef::cipher_init` (`cipher_ctx.rs:136-170`): checks the key
buffer against the effective key length (panicking exactly as the Rust
`assert!`s do), then the IV buffer, then commits to the engine.
`encrypt_init`/`decrypt_init` instantiate `dir`. -/
def cipher_init (ctx : CipherCtx) (dir : Direction) (type_ : Option CipherDesc)
    (key iv : Option (List Nat)) : CallResult CipherCtx :=
  match key, (type_.or ctx.cipher).map CipherDesc.keyLength with
  | some _, none => .panicked
  | some k, some kl =>
    if kl ≤ k.length then cipher_init_iv ctx dir type_ key iv else .panicked
  | none, _ => cipher_init_iv ctx dir type_ key iv

/-- `CipherCtxRef::encrypt_init` (`cipher_ctx.rs:107-114`). -/
def encrypt_init (ctx : CipherCtx) (type_ : Option CipherDesc)
    (key iv : Option (List Nat)) : CallResult CipherCtx :=
  cipher_init ctx .encrypting type_ key iv

/-- `CipherCtxRef::decrypt_init` (`cipher_ctx.rs:127-134`). -/
def decrypt_init (ctx : CipherCtx) (type_ : Option CipherDesc)
    (key iv : Option (List Nat)) : CallResult CipherCtx :=
  cipher_init ctx .decrypting type_ key iv

/-- `CipherCtxRef::set_padding` (`cipher_ctx.rs:465-469`). -/
def set_padding (ctx : CipherCtx) (b : Bool) : CipherCtx :=
  { ctx with padding := b }

/-- Modelled from the spec: the streaming core of `EVP_CipherUpdate`
(absent from `src/`; spec §4.1 `cipher_update` semantics).  The partial-block
buffer is prepended to the input; complete blocks are CBC-processed, the
remainder is buffered.  When decrypting with padding enabled the engine
retains the last complete block for `cipher_final`'s padding strip. -/
def engineUpdateCore (prim : Prim) (d : CipherDesc) (dir : Direction)
    (ctx : CipherCtx) (input : List Nat) : CipherCtx × List Nat :=
  let bs := d.blockSize
  let data := ctx.buf ++ input
  match dir with
  | .encrypting =>
    let tb := takeBlocks bs data
    let eb := cbcEnc prim.E ctx.chain tb.1
    ({ ctx with buf := tb.2, chain := eb.2 }, eb.1.flatten)
  | .decrypting =>
    let tb := takeBlocks bs data
    let pk := if ctx.padding && tb.2.isEmpty then
        (tb.1.dropLast, tb.1.getLastD [])
      else (tb.1, tb.2)
    let db := cbcDec prim.D ctx.chain pk.1
    ({ ctx with buf := pk.2, chain := db.2 }, db.1.flatten)

/-- `CipherCtxRef::cipher_update` (`cipher_ctx.rs:501-528`).  With an output
buffer present, `self.block_size()` panics through `assert_cipher` when no
cipher is bound, the effective block size is 0 for stream ciphers
(block size 1), and `assert!(output.len() >= input.len() + block_size)`
aborts on an undersized buffer.  With no output buffer the input is treated
as AAD.  Returns the updated context, the number of bytes written, and the
output buffer's new contents ( `[]` in the AAD case). -/
def cipher_update (prim : Prim) (ctx : CipherCtx) (input : List Nat)
    (output : Option (List Nat)) : CallResult (CipherCtx × Nat × List Nat) :=
  match output with
  | some out =>
    match ctx.cipher with
    | none => .panicked
    | some d =>
      let eff := if d.blockSize = 1 then 0 else d.blockSize
      if out.length < input.length + eff then .panicked
      else
        match ctx.direction with
        | none => .engineErr
        | some dir =>
          let r := engineUpdateCore prim d dir ctx input
          .ok (r.1, r.2.length, overwrite r.2 out)
  | none =>
    match ctx.direction with
    | none => .engineErr
    | some _ => .ok (ctx, 0, [])

/-- `CipherCtxRef::cipher_final` (`cipher_ctx.rs:554-570`).
`self.block_size()` panics when no cipher is bound; for block ciphers
`assert!(output.len() >= block_size)` aborts on a short buffer.  The engine
behaviour of `EVP_CipherFinal` is modelled from the spec: encrypting with
padding emits the padded last block; with padding disabled it requires
block-aligned input; decrypting with padding strips PKCS#7 padding from the
retained last block, failing recoverably on misaligned data or bad
padding. -/
def cipher_final (prim : Prim) (ctx : CipherCtx) (output : List Nat) :
    CallResult (CipherCtx × Nat × List Nat) :=
  match ctx.cipher with
  | none => .panicked
  | some d =>
    if 1 < d.blockSize ∧ output.length < d.blockSize then .panicked
    else
      match ctx.direction with
      | none => .engineErr
      | some .encrypting =>
        if ctx.padding then
          let block := pkcs7Pad d.blockSize ctx.buf
          let c := prim.E (zipXor ctx.chain block)
          .ok ({ ctx with buf := [], chain := c }, c.length, overwrite c output)
        else if ctx.buf.isEmpty then .ok ({ ctx with buf := [] }, 0, output)
        else .engineErr
      | some .decrypting =>
        if ctx.padding then
          if ctx.buf.length = d.blockSize then
            let p := zipXor ctx.chain (prim.D ctx.buf)
            match pkcs7Unpad d.blockSize p with
            | some stripped =>
              .ok ({ ctx with buf := [] }, stripped.length, overwrite stripped output)
            | none => .engineErr
          else .engineErr
        else if ctx.buf.isEmpty then .ok ({ ctx with buf := [] }, 0, output)
        else .engineErr

/-- `CipherCtxRef::cipher_update_vec` (`cipher_ctx.rs:531-542`): records the
base length, resizes the vector by `input.len() + self.block_size()` zeros
(`self.block_size()` panics first when no cipher is bound), runs
`cipher_update` on the tail slice, and truncates to `base + len`.  The
second component is the vector's contents afterwards (on a recoverable
error the temporary resize remains, as in the Rust `?` early return). -/
def cipher_update_vec (prim : Prim) (ctx : CipherCtx) (input : List Nat)
    (vec : List Nat) : CallResult (CipherCtx × Nat) × List Nat :=
  match ctx.cipher with
  | none => (.panicked, vec)
  | some d =>
    let base := vec.length
    let resized := resizeList vec (base + input.length + d.blockSize) 0
    match cipher_update prim ctx input (some (resized.drop base)) with
    | .ok (ctx', len, slice') =>
      (.ok (ctx', len), (resized.take base ++ slice').take (base + len))
    | .panicked => (.panicked, resized)
    | .engineErr => (.engineErr, resized)

/-- `CipherCtxRef::cipher_final_vec` (`cipher_ctx.rs:573-580`): same shape
as `cipher_update_vec` with a `block_size` resize. -/
def cipher_final_vec (prim : Prim) (ctx : CipherCtx) (vec : List Nat) :
    CallResult (CipherCtx × Nat) × List Nat :=
  match ctx.cipher with
  | none => (.panicked, vec)
  | some d =>
    let base := vec.length
    let resized := resizeList vec (base + d.blockSize) 0
    match cipher_final prim ctx (resized.drop base) with
    | .ok (ctx', len, slice') =>
      (.ok (ctx', len), (resized.take base ++ slice').take (base + len))
    | .panicked => (.panicked, resized)
    | .engineErr => (.engineErr, resized)

/-- The full encrypt lifecycle of the spec's round-trip property:
`encrypt_init` with cipher, key and IV on a fresh context, `set_padding`,
one `cipher_update_vec` over the whole plaintext, then
`cipher_final_vec`; result is the accumulated ciphertext. -/
def encryptLifecycle (prim : Prim) (d : CipherDesc) (key iv : List Nat)
    (pad : Bool) (pt : List Nat) : CallResult (List Nat) :=
  match encrypt_init CipherCtx.new (some d) (some key) (some iv) with
  | .panicked => .panicked
  | .engineErr => .engineErr
  | .ok ctx1 =>
    match cipher_update_vec prim (set_padding ctx1 pad) pt [] with
    | (.ok (ctx2, _), vec1) =>
      match cipher_final_vec prim ctx2 vec1 with
      | (.ok _, vec2) => .ok vec2
      | (.panicked, _) => .panicked
      | (.engineErr, _) => .engineErr
    | (.panicked, _) => .panicked
    | (.engineErr, _) => .engineErr

/-- The full decrypt lifecycle: `decrypt_init` with the same cipher, key and
IV, `set_padding`, one `cipher_update_vec` over the ciphertext, then
`cipher_final_vec`. -/
def decryptLifecycle (prim : Prim) (d : CipherDesc) (key iv : List Nat)
    (pad : Bool) (ct : List Nat) : CallResult (List Nat) :=
  match decrypt_init CipherCtx.new (some d) (some key) (some iv) with
  | .panicked => .panicked
  | .engineErr => .engineErr
  | .ok ctx1 =>
    match cipher_update_vec prim (set_padding ctx1 pad) ct [] with
    | (.ok (ctx2, _), vec1) =>
      match cipher_final_vec prim ctx2 vec1 with
      | (.ok _, vec2) => .ok vec2
      | (.panicked, _) => .panicked
      | (.engineErr, _) => .engineErr
    | (.panicked, _) => .panicked
    | (.engineErr, _) => .engineErr

/-- Encrypt-then-decrypt under the same cipher, key and IV (spec §8
round-trip property), with default padding. -/
def roundTrip (prim : Prim) (d : CipherDesc) (key iv pt : List Nat) :
    CallResult (List Nat) :=
  match encryptLifecycle prim d key iv true pt with
  | .ok ct => decryptLifecycle prim d key iv true ct
  | .panicked => .panicked
  | .engineErr => .engineErr

/-- An asymmetric recipient key as the spec's key-container boundary sees it
(spec §6): only its maximum output size is observable to the buffer logic. -/
structure PubKey where
  size : Nat
deriving DecidableEq, Repr

/-- The context state after a successful `EVP_SealInit` commit (modelled
from the spec §4.2): cipher bound, direction encrypting, the fresh session
key loaded, chaining value set to the generated IV. -/
def sealedCtx (ctx : CipherCtx) (type_ : Option CipherDesc)
    (sk genIv : List Nat) : CipherCtx :=
  { ctx with cipher := type_.or ctx.cipher
             direction := some .encrypting
             key := sk
             chain := genIv
             buf := [] }

/-- Modelled from the spec: the commit half of `CipherCtxRef::seal_init`
(`cipher_ctx.rs:201-228` around the external `EVP_SealInit`).  Each output
slot is resized to its recipient key's maximum output size
(`buf.resize(pub_key.size(), 0)`), the engine writes the session key `sk`
wrapped under each recipient key into the slot and reports the produced
length, and each slot is truncated to that length
(`buf.truncate(len as usize)`).  The generated IV is written into the `iv`
buffer when present. -/
def sealCommit (wrap : PubKey → List Nat → List Nat) (sk genIv : List Nat)
    (ctx : CipherCtx) (type_ : Option CipherDesc) (pubKeys : List PubKey)
    (encryptedKeys : List (List Nat)) (iv : Option (List Nat)) :
    CallResult (CipherCtx × List (List Nat) × Option (List Nat)) :=
  let resized := List.zipWith (fun pk buf => resizeList buf pk.size 0) pubKeys encryptedKeys
  let written := List.zipWith (fun pk buf => overwrite (wrap pk sk) buf) pubKeys resized
  let lens := pubKeys.map (fun pk => (wrap pk sk).length)
  let outKeys := List.zipWith (fun buf l => buf.take l) written lens
  .ok (sealedCtx ctx type_ sk genIv, outKeys, iv.map (fun b => overwrite genIv b))

/-- `CipherCtxRef::seal_init` (`cipher_ctx.rs:185-229`):
`assert_eq!(pub_keys.len(), encrypted_keys.len())` aborts on mismatched
lists; when the recipient list is non-empty the effective IV length is
looked up (panicking through `assert_cipher` if no cipher is available) and
`assert!(iv.as_ref().map_or(0, |b| b.len()) >= iv_len)` aborts on a short
IV buffer; then the engine commit runs.  The engine's fresh session key and
generated IV are the parameters `sk` and `genIv` (randomness is external,
spec §1). -/
def seal_init (wrap : PubKey → List Nat → List Nat) (sk genIv : List Nat)
    (ctx : CipherCtx) (type_ : Option CipherDesc) (pubKeys : List PubKey)
    (encryptedKeys : List (List Nat)) (iv : Option (List Nat)) :
    CallResult (CipherCtx × List (List Nat) × Option (List Nat)) :=
  if pubKeys.length ≠ encryptedKeys.length then .panicked
  else if pubKeys.isEmpty then
    sealCommit wrap sk genIv ctx type_ pubKeys encryptedKeys iv
  else
    match (type_.or ctx.cipher).map CipherDesc.ivLength with
    | none => .panicked
    | some il =>
      if (iv.map List.length).getD 0 < il then .panicked
      else sealCommit wrap sk genIv ctx type_ pubKeys encryptedKeys iv

/-- Flips bit `j` of byte `i` of a byte string. -/
def flipBit (msg : List Nat) (i j : Nat) : List Nat :=
  msg.set i (Nat.xor (msg.getD i 0) (2 ^ j))

/-- The decrypt-direction state of an AEAD context that `set_tag` and
`cipher_final` observe: the expected tag (if one has been supplied) and the
ciphertext accumulated by `cipher_update` calls. -/
structure AeadDecCtx where
  expectedTag : Option (List Nat)
  dataAcc : List Nat
deriving DecidableEq, Repr

/-- A fresh AEAD decrypt context: no expected tag, no data yet. -/
def AeadDecCtx.start : AeadDecCtx := { expectedTag := none, dataAcc := [] }

/-- `CipherCtxRef::set_tag` (`cipher_ctx.rs:446-459`): stores the expected
authentication tag for verification during decryption (the
`EVP_CTRL_GCM_SET_TAG` control call). -/
def set_tag (ctx : AeadDecCtx) (tag : List Nat) : AeadDecCtx :=
  { ctx with expectedTag := some tag }

/-- The ciphertext-accumulating effect of `cipher_update` on a decrypting
AEAD context (modelled from the spec: every updated byte contributes to tag
verification). -/
def aeadUpdateAcc (ctx : AeadDecCtx) (input : List Nat) : AeadDecCtx :=
  { ctx with dataAcc := ctx.dataAcc ++ input }

/-- Modelled from the spec: the AEAD decrypt branch of `EVP_CipherFinal`
reached through `CipherCtxRef::cipher_final` (`cipher_ctx.rs:554-570`;
engine absent from `src/`).  The engine recomputes the tag over the
accumulated ciphertext with the keyed tag function `tagOf` and compares it
with the tag supplied through `set_tag`; a mismatch (or a missing tag) is a
recoverable engine error, never a success. -/
def aeadCipherFinalDec (tagOf : List Nat → List Nat) (ctx : AeadDecCtx) :
    CallResult (List Nat) :=
  match ctx.expectedTag with
  | none => .engineErr
  | some t => if tagOf ctx.dataAcc = t then .ok [] else .engineErr

/-- A DSA key as laid out by the in-repository fallback accessors
(`dsa.rs:286-339`): the five big-number components, `none` for a null
pointer.  Big numbers are modelled as `Nat`. -/
structure DSAKey where
  p : Option Nat
  q : Option Nat
  g : Option Nat
  pub_key : Option Nat
  priv_key : Option Nat
deriving DecidableEq, Repr

/-- `DSA_set0_pqg` (`dsa.rs:329-339`): stores the three parameters,
returning 1. -/
def DSA_set0_pqg (d : DSAKey) (p q g : Option Nat) : DSAKey × Int :=
  ({ d with p := p, q := q, g := g }, 1)

/-- `DSA_set0_key` (`dsa.rs:318-326`): stores the key components,
returning 1. -/
def DSA_set0_key (d : DSAKey) (pub priv : Option Nat) : DSAKey × Int :=
  ({ d with pub_key := pub, priv_key := priv }, 1)

/-- `DsaRef::p` (`dsa.rs:153-159`, through `DSA_get0_pqg`). -/
def dsaP (d : DSAKey) : Option Nat := d.p

/-- `DsaRef::q` (`dsa.rs:163-169`, through `DSA_get0_pqg`). -/
def dsaQ (d : DSAKey) : Option Nat := d.q

/-- `DsaRef::g` (`dsa.rs:173-179`, through `DSA_get0_pqg`). -/
def dsaG (d : DSAKey) : Option Nat := d.g

/-- `DsaRef::pub_key` (`dsa.rs:103-109`, through `DSA_get0_key`). -/
def dsaPubKey (d : DSAKey) : Option Nat := d.pub_key

/-- `DsaRef::priv_key` (`dsa.rs:132-138`, through `DSA_get0_key`). -/
def dsaPrivKey (d : DSAKey) : Option Nat := d.priv_key

/-- `Dsa::from_private_components` (`dsa.rs:215-231`): builds a fresh key
(`DSA_new`), installs `p`, `q`, `g` via `DSA_set0_pqg` and the key pair via
`DSA_set0_key`, each checked through `cvt` (error when the return is not
positive). -/
def from_private_components (p q g priv_key pub_key : Nat) : CallResult DSAKey :=
  let d0 : DSAKey := ⟨none, none, none, none, none⟩
  let r1 := DSA_set0_pqg d0 (some p) (some q) (some g)
  if r1.2 ≤ 0 then .engineErr
  else
    let r2 := DSA_set0_key r1.1 (some pub_key) (some priv_key)
    if r2.2 ≤ 0 then .engineErr else .ok r2.1

/-- `Dsa::from_public_components` (`dsa.rs:257-272`): as
`from_private_components` but installs a null private key. -/
def from_public_components (p q g pub_key : Nat) : CallResult DSAKey :=
  let d0 : DSAKey := ⟨none, none, none, none, none⟩
  let r1 := DSA_set0_pqg d0 (some p) (some q) (some g)
  if r1.2 ≤ 0 then .engineErr
  else
    let r2 := DSA_set0_key r1.1 (some pub_key) none
    if r2.2 ≤ 0 then .engineErr else .ok r2.1

/-- One hex digit to its value. -/
def hexDigitVal (c : Char) : Option Nat :=
  let n := c.toNat
  if 48 ≤ n ∧ n ≤ 57 then some (n - 48)
  else if 97 ≤ n ∧ n ≤ 102 then some (n - 87)
  else if 65 ≤ n ∧ n ≤ 70 then some (n - 55)
  else none

/-- Decodes a list of hex digits pairwise into bytes; `none` on an odd
number of digits or a non-hex character (the behaviour of the test
vectors' `hex::decode`). -/
def hexPairs : List Char → Option (List Nat)
  | [] => some []
  | [_] => none
  | a :: b :: rest =>
    match hexDigitVal a, hexDigitVal b, hexPairs rest with
    | some x, some y, some l => some ((16 * x + y) :: l)
    | _, _, _ => none

/-- Hex-decodes a string into bytes. -/
def hexDecode (s : String) : Option (List Nat) := hexPairs s.toList

/-- Modelled from the spec: the AES S-box (FIPS-197 §5.1.1) of the external
primitive engine's AES-128 implementation, absent from `src/`; the spec's
known-answer vector (§8) pins this cipher down. -/
def aesSbox : List Nat :=
  [99, 124, 119, 123, 242, 107, 111, 197, 48, 1, 103, 43, 254, 215, 171, 118,
   202, 130, 201, 125, 250, 89, 71, 240, 173, 212, 162, 175, 156, 164, 114, 192,
   183, 253, 147, 38, 54, 63, 247, 204, 52, 165, 229, 241, 113, 216, 49, 21,
   4, 199, 35, 195, 24, 150, 5, 154, 7, 18, 128, 226, 235, 39, 178, 117,
   9, 131, 44, 26, 27, 110, 90, 160, 82, 59, 214, 179, 41, 227, 47, 132,
   83, 209, 0, 237, 32, 252, 177, 91, 106, 203, 190, 57, 74, 76, 88, 207,
   208, 239, 170, 251, 67, 77, 51, 133, 69, 249, 2, 127, 80, 60, 159, 168,
   81, 163, 64, 143, 146, 157, 56, 245, 188, 182, 218, 33, 16, 255, 243, 210,
   205, 12, 19, 236, 95, 151, 68, 23, 196, 167, 126, 61, 100, 93, 25, 115,
   96, 129, 79, 220, 34, 42, 144, 136, 70, 238, 184, 20, 222, 94, 11, 219,
   224, 50, 58, 10, 73, 6, 36, 92, 194, 211, 172, 98, 145, 149, 228, 121,
   231, 200, 55, 109, 141, 213, 78, 169, 108, 86, 244, 234, 101, 122, 174, 8,
   186, 120, 37, 46, 28, 166, 180, 198, 232, 221, 116, 31, 75, 189, 139, 138,
   112, 62, 181, 102, 72, 3, 246, 14, 97, 53, 87, 185, 134, 193, 29, 158,
   225, 248, 152, 17, 105, 217, 142, 148, 155, 30, 135, 233, 206, 85, 40, 223,
   140, 161, 137, 13, 191, 230, 66, 104, 65, 153, 45, 15, 176, 84, 187, 22]

/-- S-box lookup. -/
def sb (b : Nat) : Nat := aesSbox.getD b 0

/-- Multiplication by x in GF(2^8) modulo the AES polynomial. -/
def xtime (b : Nat) : Nat :=
  if 128 ≤ b then Nat.xor (2 * b - 256) 27 else 2 * b

/-- Multiplication by 3 in GF(2^8). -/
def gm3 (b : Nat) : Nat := Nat.xor (xtime b) b

/-- The AES-128 round constants. -/
def aesRcon : List Nat := [1, 2, 4, 8, 16, 32, 64, 128, 27, 54]

/-- RotWord of the key schedule. -/
def rotWord : List Nat → List Nat
  | a :: rest => rest ++ [a]
  | [] => []

/-- One key-expansion step: appends word `i` given words `0..i-1`. -/
def expandStep (ws : List (List Nat)) (j : Nat) : List (List Nat) :=
  let i := j + 4
  let prev := ws.getLastD []
  let w4 := ws.getD (ws.length - 4) []
  let t := if i % 4 = 0 then
      zipXor ((rotWord prev).map sb) [aesRcon.getD (i / 4 - 1) 0, 0, 0, 0]
    else prev
  ws ++ [zipXor w4 t]

/-- AES-128 key expansion to the eleven 16-byte round keys (FIPS-197 §5.2). -/
def roundKeys (key : List Nat) : List (List Nat) :=
  let w0 := (takeBlocks 4 key).1
  let ws := (List.range 40).foldl expandStep w0
  (takeBlocks 16 ws.flatten).1

/-- ShiftRows on the flat column-major 16-byte state (FIPS-197 §5.1.2). -/
def shiftRows (s : List Nat) : List Nat :=
  [0, 5, 10, 15, 4, 9, 14, 3, 8, 13, 2, 7, 12, 1, 6, 11].map (fun i => s.getD i 0)

/-- MixColumns on one 4-byte column (FIPS-197 §5.1.3). -/
def mixCol : List Nat → List Nat
  | [a, b, c, d] =>
    [Nat.xor (Nat.xor (xtime a) (gm3 b)) (Nat.xor c d),
     Nat.xor (Nat.xor a (xtime b)) (Nat.xor (gm3 c) d),
     Nat.xor (Nat.xor a b) (Nat.xor (xtime c) (gm3 d)),
     Nat.xor (Nat.xor (gm3 a) b) (Nat.xor c (xtime d))]
  | l => l

/-- MixColumns over the whole state. -/
def mixColumns (s : List Nat) : List Nat :=
  ((takeBlocks 4 s).1.map mixCol).flatten

/-- One middle AES round keyed with `rk`. -/
def aesRound (s rk : List Nat) : List Nat :=
  zipXor (mixColumns (shiftRows (s.map sb))) rk

/-- AES-128 block encryption (FIPS-197 §5.1): initial AddRoundKey, nine
middle rounds, final round without MixColumns. -/
def aesEncBlock (key block : List Nat) : List Nat :=
  let rks := roundKeys key
  let s0 := zipXor block (rks.getD 0 [])
  let s9 := ((rks.drop 1).dropLast).foldl aesRound s0
  zipXor (shiftRows (s9.map sb)) (rks.getLastD [])

/-- The engine's AES-128-CBC keyed block maps for the known-answer claim
(only encryption is exercised there; the inverse is irrelevant and left as
the identity). -/
def aesPrim (key : List Nat) : Prim :=
  { E := aesEncBlock key, D := fun b => b }

/-- The AES-128-CBC descriptor: 16-byte blocks, 16-byte key, 16-byte IV. -/
def aes128CbcDesc : CipherDesc := { blockSize := 16, keyLength := 16, ivLength := 16 }

theorem zipXor_cancel (a : List Nat) : ∀ b : List Nat, a.length = b.length →
    zipXor a (zipXor a b) = b := by
  induction a with
  | nil => intro b hb; cases b <;> simp_all [zipXor]
  | cons x xs ih =>
    intro b hb
    cases b with
    | nil => simp at hb
    | cons y ys =>
      have h2 : xs.length = ys.length := by simpa using hb
      simp only [zipXor, List.zipWith_cons_cons] at *
      simp only [List.cons.injEq]
      exact ⟨Nat.xor_cancel_left x y, ih ys h2⟩

theorem zipXor_length (a b : List Nat) : (zipXor a b).length = min a.length b.length :=
  List.length_zipWith ..

theorem takeBlocksF_flatten (bs : Nat) : ∀ (fuel : Nat) (l : List Nat),
    (takeBlocksF bs fuel l).1.flatten ++ (takeBlocksF bs fuel l).2 = l := by
  intro fuel
  induction fuel with
  | zero => intro l; simp [takeBlocksF]
  | succ f ih =>
    intro l
    simp only [takeBlocksF]
    split
    · simp only [List.flatten_cons, List.append_assoc, ih (l.drop bs)]
      exact List.take_append_drop bs l
    · simp

theorem takeBlocksF_rest_lt (bs : Nat) (hbs : 0 < bs) : ∀ (fuel : Nat) (l : List Nat),
    l.length ≤ fuel → (takeBlocksF bs fuel l).2.length < bs := by
  intro fuel
  induction fuel with
  | zero =>
    intro l hl
    have : l = [] := List.eq_nil_of_length_eq_zero (Nat.le_zero.mp hl)
    simp [takeBlocksF, this, hbs]
  | succ f ih =>
    intro l hl
    simp only [takeBlocksF]
    split
    · next h => exact ih (l.drop bs) (by simp only [List.length_drop]; omega)
    · next h =>
      have hc : ¬ bs ≤ l.length := fun hc => h ⟨hbs, hc⟩
      simpa using Nat.lt_of_not_le hc

theorem takeBlocksF_block_len (bs : Nat) : ∀ (fuel : Nat) (l : List Nat),
    ∀ b ∈ (takeBlocksF bs fuel l).1, b.length = bs := by
  intro fuel
  induction fuel with
  | zero => intro l b hb; simp [takeBlocksF] at hb
  | succ f ih =>
    intro l b hb
    simp only [takeBlocksF] at hb
    split at hb
    · next h =>
      simp only [List.mem_cons] at hb
      rcases hb with hb | hb
      · subst hb; simp only [List.length_take]; omega
      · exact ih (l.drop bs) b hb
    · simp at hb

theorem takeBlocks_flatten (bs : Nat) (l : List Nat) :
    (takeBlocks bs l).1.flatten ++ (takeBlocks bs l).2 = l :=
  takeBlocksF_flatten bs l.length l

theorem takeBlocks_rest_lt (bs : Nat) (hbs : 0 < bs) (l : List Nat) :
    (takeBlocks bs l).2.length < bs :=
  takeBlocksF_rest_lt bs hbs l.length l (Nat.le_refl _)

theorem takeBlocks_block_len (bs : Nat) (l : List Nat) :
    ∀ b ∈ (takeBlocks bs l).1, b.length = bs :=
  takeBlocksF_block_len bs l.length l

theorem takeBlocksF_short (bs : Nat) (l : List Nat) (h : l.length < bs) :
    ∀ fuel, takeBlocksF bs fuel l = ([], l) := by
  intro fuel
  cases fuel with
  | zero => rfl
  | succ f =>
    simp only [takeBlocksF]
    rw [if_neg]
    rintro ⟨-, hc⟩
    omega

theorem takeBlocksF_exact (bs : Nat) (hbs : 0 < bs) :
    ∀ (blocks : List (List Nat)) (r : List Nat) (fuel : Nat),
    (∀ b ∈ blocks, b.length = bs) → r.length < bs →
    (blocks.flatten ++ r).length ≤ fuel →
    takeBlocksF bs fuel (blocks.flatten ++ r) = (blocks, r) := by
  intro blocks
  induction blocks with
  | nil =>
    intro r fuel _ hr _
    simpa using takeBlocksF_short bs r hr fuel
  | cons b bs' ih =>
    intro r fuel hlen hr hfuel
    have hb : b.length = bs := hlen b (by simp)
    have hsplit : (b :: bs').flatten ++ r = b ++ (bs'.flatten ++ r) := by simp
    cases fuel with
    | zero =>
      exfalso
      rw [hsplit] at hfuel
      simp only [List.length_append, Nat.le_zero] at hfuel
      omega
    | succ f =>
      simp only [takeBlocksF, hsplit]
      rw [if_pos]
      · have htake : (b ++ (bs'.flatten ++ r)).take bs = b := by
          rw [← hb]; exact List.take_left b _
        have hdrop : (b ++ (bs'.flatten ++ r)).drop bs = bs'.flatten ++ r := by
          rw [← hb]; exact List.drop_left b _
        have hfuel' : (bs'.flatten ++ r).length ≤ f := by
          rw [hsplit] at hfuel
          simp only [List.length_append] at hfuel ⊢
          omega
        rw [htake, hdrop, ih r f (fun x hx => hlen x (by simp [hx])) hr hfuel']
      · refine ⟨hbs, ?_⟩
        simp [hb]

theorem takeBlocks_exact (bs : Nat) (hbs : 0 < bs) (blocks : List (List Nat)) (r : List Nat)
    (hlen : ∀ b ∈ blocks, b.length = bs) (hr : r.length < bs) :
    takeBlocks bs (blocks.flatten ++ r) = (blocks, r) :=
  takeBlocksF_exact bs hbs blocks r _ hlen hr (Nat.le_refl _)

theorem cbcEnc_len (E : List Nat → List Nat) (bs : Nat)
    (hEl : ∀ b, b.length = bs → (E b).length = bs) :
    ∀ (blocks : List (List Nat)) (chain : List Nat), chain.length = bs →
    (∀ b ∈ blocks, b.length = bs) →
    (∀ c ∈ (cbcEnc E chain blocks).1, c.length = bs) ∧
      (cbcEnc E chain blocks).2.length = bs := by
  intro blocks
  induction blocks with
  | nil => intro chain hch _; simpa [cbcEnc] using hch
  | cons b rest ih =>
    intro chain hch hb
    have hblen : b.length = bs := hb b (by simp)
    have hxlen : (zipXor chain b).length = bs := by
      rw [zipXor_length, hch, hblen, Nat.min_self]
    have hclen : (E (zipXor chain b)).length = bs := hEl _ hxlen
    have := ih (E (zipXor chain b)) hclen (fun x hx => hb x (by simp [hx]))
    simp only [cbcEnc, List.mem_cons]
    constructor
    · rintro c (rfl | hc)
      · exact hclen
      · exact this.1 c hc
    · exact this.2

theorem cbcDec_cbcEnc (E D : List Nat → List Nat) (bs : Nat)
    (hED : ∀ b, b.length = bs → D (E b) = b)
    (hEl : ∀ b, b.length = bs → (E b).length = bs) :
    ∀ (blocks : List (List Nat)) (chain : List Nat), chain.length = bs →
    (∀ b ∈ blocks, b.length = bs) →
    cbcDec D chain (cbcEnc E chain blocks).1 = (blocks, (cbcEnc E chain blocks).2) := by
  intro blocks
  induction blocks with
  | nil => intro chain _ _; simp [cbcEnc, cbcDec]
  | cons b rest ih =>
    intro chain hch hb
    have hblen : b.length = bs := hb b (by simp)
    have hxlen : (zipXor chain b).length = bs := by
      rw [zipXor_length, hch, hblen, Nat.min_self]
    have hclen : (E (zipXor chain b)).length = bs := hEl _ hxlen
    have hrec := ih (E (zipXor chain b)) hclen (fun x hx => hb x (by simp [hx]))
    simp only [cbcEnc, cbcDec, hrec, hED _ hxlen, zipXor_cancel chain b (by omega)]

theorem pkcs7Pad_length (bs : Nat) (l : List Nat) (h : l.length ≤ bs) :
    (pkcs7Pad bs l).length = bs := by
  simp only [pkcs7Pad, List.length_append, List.length_replicate]
  omega

theorem pkcs7Unpad_pkcs7Pad (bs : Nat) (hbs : 0 < bs) (l : List Nat)
    (h : l.length < bs) : pkcs7Unpad bs (pkcs7Pad bs l) = some l := by
  have hn : 1 ≤ bs - l.length := by omega
  have hlast : (pkcs7Pad bs l).getLast? = some (bs - l.length) := by
    unfold pkcs7Pad
    rw [List.getLast?_append_of_ne_nil]
    · rw [List.getLast?_replicate]
      simp; omega
    · simp; omega
  have hlen : (pkcs7Pad bs l).length = bs := pkcs7Pad_length bs l (by omega)
  simp only [pkcs7Unpad, hlast]
  rw [if_pos]
  · congr 1
    rw [hlen]
    have : bs - (bs - l.length) = l.length := by omega
    rw [this]
    unfold pkcs7Pad
    exact List.take_left l _
  · refine ⟨hn, by omega, by omega, ?_⟩
    rw [hlen]
    have : bs - (bs - l.length) = l.length := by omega
    rw [this]
    unfold pkcs7Pad
    rw [List.drop_left l _]
    simp

theorem resizeList_of_le (l : List Nat) (n v : Nat) (h : l.length ≤ n) :
    resizeList l n v = l ++ List.replicate (n - l.length) v := by
  unfold resizeList
  split
  · next h2 =>
    have : n = l.length := by omega
    simp [this]
  · rfl

theorem cipher_update_vec_enc_eval (prim : Prim) (d : CipherDesc)
    (keyf chain buf : List Nat) (pad : Bool) (input vec : List Nat) :
    cipher_update_vec prim ⟨some d, some .encrypting, keyf, chain, buf, pad⟩ input vec =
      (.ok (⟨some d, some .encrypting, keyf,
              (cbcEnc prim.E chain (takeBlocks d.blockSize (buf ++ input)).1).2,
              (takeBlocks d.blockSize (buf ++ input)).2, pad⟩,
            (cbcEnc prim.E chain (takeBlocks d.blockSize (buf ++ input)).1).1.flatten.length),
       vec ++ (cbcEnc prim.E chain (takeBlocks d.blockSize (buf ++ input)).1).1.flatten) := by
  have hres : resizeList vec (vec.length + input.length + d.blockSize) 0 =
      vec ++ List.replicate (input.length + d.blockSize) 0 := by
    rw [resizeList_of_le _ _ _ (by omega)]
    congr 2
    omega
  have hnp : ¬((List.replicate (input.length + d.blockSize) 0).length <
      input.length + (if d.blockSize = 1 then 0 else d.blockSize)) := by
    simp only [List.length_replicate]
    split <;> omega
  simp only [cipher_update_vec, cipher_update, hres, List.drop_left, if_neg hnp,
    engineUpdateCore, overwrite, List.take_left, List.take_append]

theorem cipher_update_vec_dec_eval (prim : Prim) (d : CipherDesc)
    (keyf chain buf : List Nat) (pad : Bool) (input vec : List Nat) :
    cipher_update_vec prim ⟨some d, some .decrypting, keyf, chain, buf, pad⟩ input vec =
      (let tb := takeBlocks d.blockSize (buf ++ input)
       let pk := if pad && tb.2.isEmpty then (tb.1.dropLast, tb.1.getLastD []) else (tb.1, tb.2)
       let db := cbcDec prim.D chain pk.1
       (.ok (⟨some d, some .decrypting, keyf, db.2, pk.2, pad⟩, db.1.flatten.length),
        vec ++ db.1.flatten)) := by
  have hres : resizeList vec (vec.length + input.length + d.blockSize) 0 =
      vec ++ List.replicate (input.length + d.blockSize) 0 := by
    rw [resizeList_of_le _ _ _ (by omega)]
    congr 2
    omega
  have hnp : ¬((List.replicate (input.length + d.blockSize) 0).length <
      input.length + (if d.blockSize = 1 then 0 else d.blockSize)) := by
    simp only [List.length_replicate]
    split <;> omega
  simp only [cipher_update_vec, cipher_update, hres, List.drop_left, if_neg hnp,
    engineUpdateCore, overwrite, List.take_left, List.take_append]

theorem cipher_final_vec_enc_pad_eval (prim : Prim) (d : CipherDesc)
    (keyf chain buf vec : List Nat) :
    cipher_final_vec prim ⟨some d, some .encrypting, keyf, chain, buf, true⟩ vec =
      (.ok (⟨some d, some .encrypting, keyf,
              prim.E (zipXor chain (pkcs7Pad d.blockSize buf)), [], true⟩,
            (prim.E (zipXor chain (pkcs7Pad d.blockSize buf))).length),
       vec ++ prim.E (zipXor chain (pkcs7Pad d.blockSize buf))) := by
  have hres : resizeList vec (vec.length + d.blockSize) 0 =
      vec ++ List.replicate d.blockSize 0 := by
    rw [resizeList_of_le _ _ _ (by omega)]
    congr 2
    omega
  have hnp : ¬(1 < d.blockSize ∧ (List.replicate d.blockSize 0).length < d.blockSize) := by
    simp only [List.length_replicate]
    omega
  simp only [cipher_final_vec, cipher_final, hres, List.drop_left, if_neg hnp,
    if_true, overwrite, List.take_left, List.take_append]

theorem cipher_final_vec_dec_pad_eval (prim : Prim) (d : CipherDesc)
    (keyf chain buf vec stripped : List Nat)
    (hbuf : buf.length = d.blockSize)
    (hunpad : pkcs7Unpad d.blockSize (zipXor chain (prim.D buf)) = some stripped) :
    cipher_final_vec prim ⟨some d, some .decrypting, keyf, chain, buf, true⟩ vec =
      (.ok (⟨some d, some .decrypting, keyf, chain, [], true⟩, stripped.length),
       vec ++ stripped) := by
  have hres : resizeList vec (vec.length + d.blockSize) 0 =
      vec ++ List.replicate d.blockSize 0 := by
    rw [resizeList_of_le _ _ _ (by omega)]
    congr 2
    omega
  have hnp : ¬(1 < d.blockSize ∧ (List.replicate d.blockSize 0).length < d.blockSize) := by
    simp only [List.length_replicate]
    omega
  simp only [cipher_final_vec, cipher_final, hres, List.drop_left, if_neg hnp,
    if_true, if_pos hbuf, hunpad, overwrite, List.take_left, List.take_append]

theorem cipher_init_fresh_eval (dir : Direction) (d : CipherDesc) (key iv : List Nat)
    (hkey : d.keyLength ≤ key.length) (hiv : d.ivLength ≤ iv.length) :
    cipher_init CipherCtx.new dir (some d) (some key) (some iv) =
      .ok { cipher := some d, direction := some dir,
            key := key.take d.keyLength, chain := iv.take d.ivLength,
            buf := [], padding := true } := by
  simp [cipher_init, cipher_init_iv, CipherCtx.new, hkey, hiv]
  rfl

theorem encryptLifecycle_pad_eval (prim : Prim) (d : CipherDesc) (key iv pt : List Nat)
    (hivd : d.ivLength = iv.length)
    (hkey : d.keyLength ≤ key.length) :
    encryptLifecycle prim d key iv true pt =
      .ok ((cbcEnc prim.E iv (takeBlocks d.blockSize pt).1).1.flatten ++
           prim.E (zipXor (cbcEnc prim.E iv (takeBlocks d.blockSize pt).1).2
                          (pkcs7Pad d.blockSize (takeBlocks d.blockSize pt).2))) := by
  have htk : iv.take d.ivLength = iv := by
    rw [hivd]; exact List.take_length iv
  have h1 := cipher_init_fresh_eval .encrypting d key iv hkey (by omega)
  have h2 := cipher_update_vec_enc_eval prim d (key.take d.keyLength) iv [] true pt []
  have h3 := cipher_final_vec_enc_pad_eval prim d (key.take d.keyLength)
    (cbcEnc prim.E iv (takeBlocks d.blockSize pt).1).2
    (takeBlocks d.blockSize pt).2
    ((cbcEnc prim.E iv (takeBlocks d.blockSize pt).1).1.flatten)
  simp only [encryptLifecycle, encrypt_init, h1, htk, set_padding]
  simp only [List.nil_append] at h2
  simp only [h2, h3, List.nil_append]

theorem decryptLifecycle_roundtrip_eval (prim : Prim) (d : CipherDesc) (key iv pt : List Nat)
    (hbs : 0 < d.blockSize)
    (hivd : d.ivLength = d.blockSize) (hiv : iv.length = d.blockSize)
    (hkey : d.keyLength ≤ key.length)
    (hED : ∀ b, b.length = d.blockSize → prim.D (prim.E b) = b)
    (hEl : ∀ b, b.length = d.blockSize → (prim.E b).length = d.blockSize) :
    decryptLifecycle prim d key iv true
      ((cbcEnc prim.E iv (takeBlocks d.blockSize pt).1).1.flatten ++
       prim.E (zipXor (cbcEnc prim.E iv (takeBlocks d.blockSize pt).1).2
                      (pkcs7Pad d.blockSize (takeBlocks d.blockSize pt).2))) = .ok pt := by
  have hBlen := takeBlocks_block_len d.blockSize pt
  have hr : (takeBlocks d.blockSize pt).2.length < d.blockSize :=
    takeBlocks_rest_lt d.blockSize hbs pt
  have hcbc := cbcEnc_len prim.E d.blockSize hEl (takeBlocks d.blockSize pt).1 iv hiv hBlen
  have hblock : (pkcs7Pad d.blockSize (takeBlocks d.blockSize pt).2).length = d.blockSize :=
    pkcs7Pad_length _ _ (Nat.le_of_lt hr)
  have hxlen : (zipXor (cbcEnc prim.E iv (takeBlocks d.blockSize pt).1).2
      (pkcs7Pad d.blockSize (takeBlocks d.blockSize pt).2)).length = d.blockSize := by
    rw [zipXor_length, hcbc.2, hblock, Nat.min_self]
  have hclen : (prim.E (zipXor (cbcEnc prim.E iv (takeBlocks d.blockSize pt).1).2
      (pkcs7Pad d.blockSize (takeBlocks d.blockSize pt).2))).length = d.blockSize :=
    hEl _ hxlen
  have htb : takeBlocks d.blockSize
      ((cbcEnc prim.E iv (takeBlocks d.blockSize pt).1).1.flatten ++
       prim.E (zipXor (cbcEnc prim.E iv (takeBlocks d.blockSize pt).1).2
                      (pkcs7Pad d.blockSize (takeBlocks d.blockSize pt).2))) =
      ((cbcEnc prim.E iv (takeBlocks d.blockSize pt).1).1 ++
        [prim.E (zipXor (cbcEnc prim.E iv (takeBlocks d.blockSize pt).1).2
                        (pkcs7Pad d.blockSize (takeBlocks d.blockSize pt).2))], []) := by
    have := takeBlocks_exact d.blockSize hbs
      ((cbcEnc prim.E iv (takeBlocks d.blockSize pt).1).1 ++
        [prim.E (zipXor (cbcEnc prim.E iv (takeBlocks d.blockSize pt).1).2
                        (pkcs7Pad d.blockSize (takeBlocks d.blockSize pt).2))]) []
      (by
        intro b hb
        rcases List.mem_append.mp hb with hb | hb
        · exact hcbc.1 b hb
        · rw [List.mem_singleton.mp hb]; exact hclen)
      (by simpa using hbs)
    simpa using this
  have hdec := cbcDec_cbcEnc prim.E prim.D d.blockSize hED hEl
    (takeBlocks d.blockSize pt).1 iv hiv hBlen
  have hDc : prim.D (prim.E (zipXor (cbcEnc prim.E iv (takeBlocks d.blockSize pt).1).2
      (pkcs7Pad d.blockSize (takeBlocks d.blockSize pt).2))) =
      zipXor (cbcEnc prim.E iv (takeBlocks d.blockSize pt).1).2
             (pkcs7Pad d.blockSize (takeBlocks d.blockSize pt).2) := hED _ hxlen
  have hunp : pkcs7Unpad d.blockSize
      (zipXor (cbcEnc prim.E iv (takeBlocks d.blockSize pt).1).2
        (prim.D (prim.E (zipXor (cbcEnc prim.E iv (takeBlocks d.blockSize pt).1).2
          (pkcs7Pad d.blockSize (takeBlocks d.blockSize pt).2))))) =
      some (takeBlocks d.blockSize pt).2 := by
    rw [hDc, zipXor_cancel _ _ (by rw [hcbc.2, hblock]),
      pkcs7Unpad_pkcs7Pad d.blockSize hbs _ hr]
  have htk : iv.take d.ivLength = iv := by
    rw [hivd, ← hiv]; exact List.take_length iv
  have h1 := cipher_init_fresh_eval .decrypting d key iv hkey (by omega)
  have h2 : cipher_update_vec prim
      ⟨some d, some .decrypting, key.take d.keyLength, iv, [], true⟩
      ((cbcEnc prim.E iv (takeBlocks d.blockSize pt).1).1.flatten ++
       prim.E (zipXor (cbcEnc prim.E iv (takeBlocks d.blockSize pt).1).2
                      (pkcs7Pad d.blockSize (takeBlocks d.blockSize pt).2))) [] =
      (.ok (⟨some d, some .decrypting, key.take d.keyLength,
              (cbcEnc prim.E iv (takeBlocks d.blockSize pt).1).2,
              prim.E (zipXor (cbcEnc prim.E iv (takeBlocks d.blockSize pt).1).2
                             (pkcs7Pad d.blockSize (takeBlocks d.blockSize pt).2)), true⟩,
            (takeBlocks d.blockSize pt).1.flatten.length),
       (takeBlocks d.blockSize pt).1.flatten) := by
    rw [cipher_update_vec_dec_eval]
    simp only [List.nil_append, htb, List.isEmpty_nil, Bool.and_true, if_true,
      List.dropLast_concat, List.getLastD_concat, hdec]
  have h3 := cipher_final_vec_dec_pad_eval prim d (key.take d.keyLength)
    (cbcEnc prim.E iv (takeBlocks d.blockSize pt).1).2
    (prim.E (zipXor (cbcEnc prim.E iv (takeBlocks d.blockSize pt).1).2
                    (pkcs7Pad d.blockSize (takeBlocks d.blockSize pt).2)))
    ((takeBlocks d.blockSize pt).1.flatten)
    ((takeBlocks d.blockSize pt).2) hclen hunp
  simp only [decryptLifecycle, decrypt_init, h1, htk, set_padding, h2, h3,
    takeBlocks_flatten]

/-- Claim C1: for every supported (algorithm, key, iv) triple — a descriptor
with positive block size whose IV length the IV buffer matches and whose key
length the key buffer covers, driven by a keyed block permutation and its
inverse — and every plaintext, the full encrypt lifecycle (`encrypt_init`
with cipher, key and IV, `cipher_update` over the plaintext, `cipher_final`)
followed by the full decrypt lifecycle (`decrypt_init` with the same cipher,
key and IV, `cipher_update` over the produced ciphertext, `cipher_final`)
yields exactly the original plaintext. -/
theorem claim_c1_round_trip (prim : Prim) (d : CipherDesc) (key iv pt : List Nat)
    (hbs : 0 < d.blockSize)
    (hivd : d.ivLength = d.blockSize) (hiv : iv.length = d.blockSize)
    (hkey : d.keyLength ≤ key.length)
    (hED : ∀ b, b.length = d.blockSize → prim.D (prim.E b) = b)
    (hEl : ∀ b, b.length = d.blockSize → (prim.E b).length = d.blockSize) :
    roundTrip prim d key iv pt = .ok pt := by
  rw [roundTrip, encryptLifecycle_pad_eval prim d key iv pt (by omega) hkey]
  exact decryptLifecycle_roundtrip_eval prim d key iv pt hbs hivd hiv hkey hED hEl

/-- Witness for C1 at a concrete instance: the identity block permutation on
2-byte blocks, key `[0]`, IV `[3, 4]`, plaintext `[1, 2, 3]`. -/
theorem claim_c1_round_trip_witness :
    roundTrip ⟨id, id⟩ ⟨2, 1, 2⟩ [0] [3, 4] [1, 2, 3] = .ok [1, 2, 3] :=
  claim_c1_round_trip ⟨id, id⟩ ⟨2, 1, 2⟩ [0] [3, 4] [1, 2, 3]
    (by decide) (by decide) (by decide) (by decide)
    (fun b _ => rfl) (fun b hb => hb)

/-- Claim C2: for every `cipher_update` call with an output buffer present
(on a context with a bound cipher), the call panics exactly when the output
buffer is shorter than the input length plus the effective block size —
0 for stream ciphers (block size 1), the descriptor's block size otherwise;
under the complementary precondition the size check passes and no abort
occurs. -/
theorem claim_c2_update_buffer_contract (prim : Prim) (d : CipherDesc)
    (dirO : Option Direction) (keyf chain buf : List Nat) (pad : Bool)
    (input out : List Nat) :
    cipher_update prim ⟨some d, dirO, keyf, chain, buf, pad⟩ input (some out) =
        .panicked ↔
      out.length < input.length + (if d.blockSize = 1 then 0 else d.blockSize) := by
  constructor
  · intro h
    by_contra hc
    simp only [cipher_update, if_neg hc] at h
    cases dirO with
    | none => exact CallResult.noConfusion h
    | some dir => exact CallResult.noConfusion h
  · intro h
    simp only [cipher_update, if_pos h]

/-- Claim C4: `cipher_init` (hence `encrypt_init` and `decrypt_init`) panics
exactly when a key or IV is supplied while no descriptor is available
(neither passed in the call nor previously bound), or a supplied key is
shorter than the effective key length, or a supplied IV is shorter than the
effective IV length; under the complementary precondition no abort occurs. -/
theorem claim_c4_init_contract (ctx : CipherCtx) (dir : Direction)
    (type_ : Option CipherDesc) (key iv : Option (List Nat)) :
    cipher_init ctx dir type_ key iv = .panicked ↔
      ((key.isSome ∨ iv.isSome) ∧ type_.or ctx.cipher = none) ∨
      (∃ k c, key = some k ∧ type_.or ctx.cipher = some c ∧ k.length < c.keyLength) ∨
      (∃ v c, iv = some v ∧ type_.or ctx.cipher = some c ∧ v.length < c.ivLength) := by
  rcases hor : type_.or ctx.cipher with - | c
  · cases key <;> cases iv <;>
      simp [cipher_init, cipher_init_iv, hor]
  · cases key with
    | none =>
      cases iv with
      | none => simp [cipher_init, cipher_init_iv, hor]
      | some v =>
        by_cases hv : c.ivLength ≤ v.length
        · simp [cipher_init, cipher_init_iv, hor, hv]
        · simp [cipher_init, cipher_init_iv, hor, hv]
          omega
    | some k =>
      by_cases hk : c.keyLength ≤ k.length
      · cases iv with
        | none => simp [cipher_init, cipher_init_iv, hor, hk]
        | some v =>
          by_cases hv : c.ivLength ≤ v.length
          · simp [cipher_init, cipher_init_iv, hor, hk, hv]
          · simp [cipher_init, cipher_init_iv, hor, hk, hv]
            omega
      · simp [cipher_init, hor, hk]
        omega

/-- Claim C8: on a context whose direction is still uninitialized, neither
`cipher_update` (with or without an output buffer) nor `cipher_final` ever
succeeds: each call is rejected by a panic (through the block-size lookup)
or an engine error, and never processes data. -/
theorem claim_c8_uninitialized_rejected (prim : Prim) (cipO : Option CipherDesc)
    (keyf chain buf : List Nat) (pad : Bool) (input : List Nat)
    (outO : Option (List Nat)) (fout : List Nat) :
    (cipher_update prim ⟨cipO, none, keyf, chain, buf, pad⟩ input outO).isOk = false ∧
    (cipher_final prim ⟨cipO, none, keyf, chain, buf, pad⟩ fout).isOk = false := by
  constructor
  · cases outO with
    | none => simp [cipher_update, CallResult.isOk]
    | some out =>
      cases cipO with
      | none => simp [cipher_update, CallResult.isOk]
      | some d =>
        simp only [cipher_update]
        split_ifs <;> simp [CallResult.isOk]
  · cases cipO with
    | none => simp [cipher_final, CallResult.isOk]
    | some d =>
      simp only [cipher_final]
      split_ifs <;> simp [CallResult.isOk]

theorem flipBit_getD_ne (l : List Nat) (i j : Nat) (hi : i < l.length) :
    (flipBit l i j).getD i 0 ≠ l.getD i 0 := by
  unfold flipBit
  rw [List.getD_eq_getElem?_getD, List.getElem?_set_self (by omega)]
  rw [List.getD_eq_getElem?_getD, List.getElem?_eq_getElem hi]
  simp only [Option.getD_some, Option.map_some]
  intro h
  have h2 : (2 : Nat) ^ j = 0 :=
    calc (2 : Nat) ^ j = Nat.xor (l[i]) (Nat.xor (l[i]) (2 ^ j)) :=
          (Nat.xor_cancel_left (l[i]) (2 ^ j)).symm
    _ = Nat.xor (l[i]) (l[i]) := by rw [h]
    _ = 0 := Nat.xor_self _
  exact Nat.pos_iff_ne_zero.mp (Nat.pos_pow_of_pos j (by omega)) h2

theorem flipBit_ne (l : List Nat) (i j : Nat) (hi : i < l.length) :
    flipBit l i j ≠ l := fun h => flipBit_getD_ne l i j hi (by rw [h])

/-- Claim C3: on a decrypting AEAD context, for every honestly produced
ciphertext-plus-tag pair (the supplied tag equals the engine's tag over the
ciphertext), flipping any single bit of the ciphertext — at any byte
position `i` and bit `j` whatsoever, provided the keyed tag function
separates the flipped ciphertext, as the spec's tamper-detection property
demands of the engine — or any single bit of the tag (any in-range byte
position, unconditionally) makes `cipher_final` return a recoverable engine
error — never success and never trusted plaintext. -/
theorem claim_c3_aead_tamper (tagOf : List Nat → List Nat) (c t : List Nat)
    (i j i2 j2 : Nat) (ht : t = tagOf c)
    (hsep : tagOf (flipBit c i j) ≠ tagOf c)
    (hi2 : i2 < t.length) :
    aeadCipherFinalDec tagOf
        (aeadUpdateAcc (set_tag AeadDecCtx.start t) (flipBit c i j)) = .engineErr ∧
    aeadCipherFinalDec tagOf
        (aeadUpdateAcc (set_tag AeadDecCtx.start (flipBit t i2 j2)) c) = .engineErr := by
  constructor
  · simp only [aeadCipherFinalDec, aeadUpdateAcc, set_tag, AeadDecCtx.start,
      List.nil_append]
    rw [if_neg]
    rw [ht]
    exact hsep
  · simp only [aeadCipherFinalDec, aeadUpdateAcc, set_tag, AeadDecCtx.start,
      List.nil_append]
    rw [if_neg]
    rw [ht] at hi2 ⊢
    exact fun h => flipBit_ne (tagOf c) i2 j2 hi2 h.symm

/-- Witness for C3 at a concrete instance: the identity tag function,
two-byte ciphertext `[5, 6]` with honest tag `[5, 6]`; the ciphertext flip
hits bit 2 of byte 1, the tag flip bit 0 of byte 0. -/
theorem claim_c3_aead_tamper_witness :
    aeadCipherFinalDec (fun l => l)
        (aeadUpdateAcc (set_tag AeadDecCtx.start [5, 6]) (flipBit [5, 6] 1 2)) =
      .engineErr ∧
    aeadCipherFinalDec (fun l => l)
        (aeadUpdateAcc (set_tag AeadDecCtx.start (flipBit [5, 6] 0 0)) [5, 6]) =
      .engineErr :=
  claim_c3_aead_tamper (fun l => l) [5, 6] [5, 6] 1 2 0 0 rfl (by decide) (by decide)

/-- Claim C5: `seal_init` (on a context with an effective descriptor) panics
exactly when the recipient public-key list and the encrypted-keys output
list have different lengths, or the recipient list is non-empty and the
supplied IV buffer's length (0 when no buffer is supplied) is below the
effective IV length. -/
theorem claim_c5_seal_init_contract (wrap : PubKey → List Nat → List Nat)
    (sk genIv : List Nat) (ctx : CipherCtx) (type_ : Option CipherDesc)
    (d : CipherDesc) (pubKeys : List PubKey) (encryptedKeys : List (List Nat))
    (iv : Option (List Nat)) (hd : type_.or ctx.cipher = some d) :
    seal_init wrap sk genIv ctx type_ pubKeys encryptedKeys iv = .panicked ↔
      pubKeys.length ≠ encryptedKeys.length ∨
      (pubKeys ≠ [] ∧ (iv.map List.length).getD 0 < d.ivLength) := by
  by_cases hlen : pubKeys.length = encryptedKeys.length
  · by_cases hemp : pubKeys.isEmpty
    · have : pubKeys = [] := List.isEmpty_iff.mp hemp
      simp [seal_init, hlen, hemp, sealCommit, this]
    · have hne : pubKeys ≠ [] := fun h => hemp (by simp [h])
      by_cases hiv : (iv.map List.length).getD 0 < d.ivLength
      · simp [seal_init, hlen, hemp, hd, hiv, hne]
      · simp [seal_init, hlen, hemp, hd, hiv, hne, sealCommit]
  · simp [seal_init, hlen]

/-- Witness for C5 at a concrete instance: one recipient key against an
empty output list is a length mismatch, hence a panic. -/
theorem claim_c5_seal_init_contract_witness :
    seal_init (fun _ _ => []) [] [] CipherCtx.new (some ⟨2, 1, 2⟩)
        [⟨3⟩] [] none = .panicked ↔
      ([⟨3⟩] : List PubKey).length ≠ ([] : List (List Nat)).length ∨
      (([⟨3⟩] : List PubKey) ≠ [] ∧
        ((none : Option (List Nat)).map List.length).getD 0 <
          (⟨2, 1, 2⟩ : CipherDesc).ivLength) :=
  claim_c5_seal_init_contract (fun _ _ => []) [] [] CipherCtx.new (some ⟨2, 1, 2⟩)
    ⟨2, 1, 2⟩ [⟨3⟩] [] none rfl

theorem seal_slots_map (wrap : PubKey → List Nat → List Nat) (sk : List Nat) :
    ∀ (pubKeys : List PubKey) (encryptedKeys : List (List Nat)),
    pubKeys.length = encryptedKeys.length →
    List.zipWith (fun buf l => buf.take l)
      (List.zipWith (fun pk buf => overwrite (wrap pk sk) buf) pubKeys
        (List.zipWith (fun pk buf => resizeList buf pk.size 0) pubKeys encryptedKeys))
      (pubKeys.map (fun pk => (wrap pk sk).length)) =
    pubKeys.map (fun pk => wrap pk sk) := by
  intro pubKeys
  induction pubKeys with
  | nil => intro eks _; simp
  | cons pk pks ih =>
    intro eks hlen
    cases eks with
    | nil => simp at hlen
    | cons e es =>
      simp only [List.zipWith_cons_cons, List.map_cons, overwrite, List.take_left,
        List.cons.injEq]
      exact ⟨by trivial, ih es (by simpa using hlen)⟩

/-- Claim C6: after a successful `seal_init` over recipient keys (matched
list lengths and a sufficient IV buffer), slot `i` of the encrypted-keys
output holds exactly the fresh session key wrapped under recipient key `i`:
each slot is resized to that key's maximum output size, written, truncated
to the produced length, and the index correspondence is preserved; the
generated IV is written into the `iv` output. -/
theorem claim_c6_seal_init_outputs (wrap : PubKey → List Nat → List Nat)
    (sk genIv : List Nat) (ctx : CipherCtx) (type_ : Option CipherDesc)
    (d : CipherDesc) (pubKeys : List PubKey) (encryptedKeys : List (List Nat))
    (iv : Option (List Nat)) (hd : type_.or ctx.cipher = some d)
    (hlen : pubKeys.length = encryptedKeys.length)
    (hiv : pubKeys ≠ [] → d.ivLength ≤ (iv.map List.length).getD 0) :
    seal_init wrap sk genIv ctx type_ pubKeys encryptedKeys iv =
      .ok (sealedCtx ctx type_ sk genIv,
           pubKeys.map (fun pk => wrap pk sk),
           iv.map (fun b => overwrite genIv b)) := by
  have hcommit : sealCommit wrap sk genIv ctx type_ pubKeys encryptedKeys iv =
      .ok (sealedCtx ctx type_ sk genIv,
           pubKeys.map (fun pk => wrap pk sk),
           iv.map (fun b => overwrite genIv b)) := by
    simp only [sealCommit, seal_slots_map wrap sk pubKeys encryptedKeys hlen]
  by_cases hemp : pubKeys.isEmpty
  · simp [seal_init, hlen, hemp, hcommit]
  · have hne : pubKeys ≠ [] := fun h => hemp (by simp [h])
    have hivle : ¬((iv.map List.length).getD 0 < d.ivLength) := by
      have := hiv hne
      omega
    simp [seal_init, hlen, hemp, hd, hivle, hcommit]

/-- Witness for C6 at a concrete instance: two recipient keys of sizes 2
and 3, a constant wrap function, a 2-byte IV buffer. -/
theorem claim_c6_seal_init_outputs_witness :
    seal_init (fun pk sk => List.replicate pk.size sk.length) [7] [8, 9]
        CipherCtx.new (some ⟨2, 1, 2⟩) ([⟨2⟩, ⟨3⟩] : List PubKey) [[], []] (some [0, 0]) =
      .ok (sealedCtx CipherCtx.new (some ⟨2, 1, 2⟩) [7] [8, 9],
           ([⟨2⟩, ⟨3⟩] : List PubKey).map (fun pk => List.replicate pk.size 1),
           (some [0, 0]).map (fun b => overwrite [8, 9] b)) :=
  claim_c6_seal_init_outputs (fun pk sk => List.replicate pk.size sk.length)
    [7] [8, 9] CipherCtx.new (some ⟨2, 1, 2⟩) ⟨2, 1, 2⟩ ([⟨2⟩, ⟨3⟩] : List PubKey) [[], []]
    (some [0, 0]) rfl rfl (fun _ => by decide)

/-- Claim C10: `Dsa::from_private_components` succeeds and the accessors
`p`, `q`, `g`, `priv_key`, `pub_key` on the resulting key return exactly the
values passed in; likewise `Dsa::from_public_components` round-trips `p`,
`q`, `g` and `pub_key`. -/
theorem claim_c10_dsa_components (p q g x y : Nat) :
    (∃ dk, from_private_components p q g x y = .ok dk ∧
       dsaP dk = some p ∧ dsaQ dk = some q ∧ dsaG dk = some g ∧
       dsaPrivKey dk = some x ∧ dsaPubKey dk = some y) ∧
    (∃ dk, from_public_components p q g y = .ok dk ∧
       dsaP dk = some p ∧ dsaQ dk = some q ∧ dsaG dk = some g ∧
       dsaPubKey dk = some y) := by
  refine ⟨⟨⟨some p, some q, some g, some y, some x⟩, ?_, rfl, rfl, rfl, rfl, rfl⟩,
          ⟨⟨some p, some q, some g, some y, none⟩, ?_, rfl, rfl, rfl, rfl⟩⟩ <;>
    simp [from_private_components, from_public_components, DSA_set0_pqg, DSA_set0_key]

theorem cipher_update_ok_shape (prim : Prim) (ctx : CipherCtx) (input out : List Nat)
    (ctx' : CipherCtx) (len : Nat) (slice' : List Nat)
    (h : cipher_update prim ctx input (some out) = .ok (ctx', len, slice')) :
    ∃ w, len = w.length ∧ slice' = overwrite w out := by
  cases hc : ctx.cipher with
  | none => simp [cipher_update, hc] at h
  | some d =>
    simp only [cipher_update, hc] at h
    split_ifs at h <;>
      first
      | exact absurd h (by simp)
      | (split at h
         · exact absurd h (by simp)
         · simp only [CallResult.ok.injEq, Prod.mk.injEq] at h
           exact ⟨_, h.2.1.symm, h.2.2.symm⟩)

theorem cipher_final_ok_shape (prim : Prim) (ctx : CipherCtx) (out : List Nat)
    (ctx' : CipherCtx) (len : Nat) (slice' : List Nat)
    (h : cipher_final prim ctx out = .ok (ctx', len, slice')) :
    ∃ w, len = w.length ∧ slice' = overwrite w out := by
  cases hc : ctx.cipher with
  | none => simp [cipher_final, hc] at h
  | some d =>
    simp only [cipher_final, hc] at h
    split at h
    · exact absurd h (by simp)
    · split at h
      · exact absurd h (by simp)
      · split_ifs at h
        all_goals first
          | (simp at h
             done)
          | (simp only [CallResult.ok.injEq, Prod.mk.injEq] at h
             first
             | exact ⟨[], h.2.1.symm, by rw [← h.2.2]; simp [overwrite]⟩
             | exact ⟨_, h.2.1.symm, h.2.2.symm⟩)
      · split_ifs at h
        all_goals first
          | (simp at h
             done)
          | (simp only [CallResult.ok.injEq, Prod.mk.injEq] at h
             first
             | exact ⟨[], h.2.1.symm, by rw [← h.2.2]; simp [overwrite]⟩
             | exact ⟨_, h.2.1.symm, h.2.2.symm⟩)
          | (split at h
             · simp only [CallResult.ok.injEq, Prod.mk.injEq] at h
               exact ⟨_, h.2.1.symm, h.2.2.symm⟩
             · simp at h)

/-- Claim C9: `cipher_update_vec` and `cipher_final_vec` only append to the
caller's vector: the bytes below the original length are unchanged in every
outcome, and after a successful call the final length is the original length
plus the returned number of bytes written. -/
theorem claim_c9_vec_append_only (prim : Prim) (ctx : CipherCtx)
    (input vec : List Nat) :
    ((cipher_update_vec prim ctx input vec).2.take vec.length = vec ∧
     ∀ ctx' len, (cipher_update_vec prim ctx input vec).1 = .ok (ctx', len) →
       (cipher_update_vec prim ctx input vec).2.length = vec.length + len) ∧
    ((cipher_final_vec prim ctx vec).2.take vec.length = vec ∧
     ∀ ctx' len, (cipher_final_vec prim ctx vec).1 = .ok (ctx', len) →
       (cipher_final_vec prim ctx vec).2.length = vec.length + len) := by
  constructor
  · cases hc : ctx.cipher with
    | none =>
      simp [cipher_update_vec, hc, List.take_length]
    | some d =>
      have hres : resizeList vec (vec.length + input.length + d.blockSize) 0 =
          vec ++ List.replicate (input.length + d.blockSize) 0 := by
        rw [resizeList_of_le _ _ _ (by omega)]
        congr 2
        omega
      simp only [cipher_update_vec, hc, hres, List.drop_left]
      cases hu : cipher_update prim ctx input
          (some (List.replicate (input.length + d.blockSize) 0)) with
      | panicked => simp [List.take_left]
      | engineErr => simp [List.take_left]
      | ok res =>
        obtain ⟨ctx', len, slice'⟩ := res
        obtain ⟨w, hw, hsl⟩ := cipher_update_ok_shape prim ctx input _ ctx' len slice' hu
        subst hw
        subst hsl
        simp only [overwrite, List.take_left, List.take_append, CallResult.ok.injEq,
          Prod.mk.injEq]
        constructor
        · trivial
        · rintro ctx2 len2 ⟨-, rfl⟩
          simp
  · cases hc : ctx.cipher with
    | none =>
      simp [cipher_final_vec, hc, List.take_length]
    | some d =>
      have hres : resizeList vec (vec.length + d.blockSize) 0 =
          vec ++ List.replicate d.blockSize 0 := by
        rw [resizeList_of_le _ _ _ (by omega)]
        congr 2
        omega
      simp only [cipher_final_vec, hc, hres, List.drop_left]
      cases hu : cipher_final prim ctx (List.replicate d.blockSize 0) with
      | panicked => simp [List.take_left]
      | engineErr => simp [List.take_left]
      | ok res =>
        obtain ⟨ctx', len, slice'⟩ := res
        obtain ⟨w, hw, hsl⟩ := cipher_final_ok_shape prim ctx _ ctx' len slice' hu
        subst hw
        subst hsl
        simp only [overwrite, List.take_left, List.take_append, CallResult.ok.injEq,
          Prod.mk.injEq]
        constructor
        · trivial
        · rintro ctx2 len2 ⟨-, rfl⟩
          simp

/-- Witness for C9 at a concrete instance: identity permutation on 2-byte
blocks, one full input block appended to a one-byte vector. -/
theorem claim_c9_vec_append_only_witness :
    (cipher_update_vec ⟨id, id⟩
        ⟨some ⟨2, 1, 2⟩, some .encrypting, [0], [3, 4], [], true⟩ [1, 2] [9]).2.take 1 =
      [9] ∧
    (cipher_update_vec ⟨id, id⟩
        ⟨some ⟨2, 1, 2⟩, some .encrypting, [0], [3, 4], [], true⟩ [1, 2] [9]).2.length =
      1 + 2 :=
  ⟨(claim_c9_vec_append_only ⟨id, id⟩
      ⟨some ⟨2, 1, 2⟩, some .encrypting, [0], [3, 4], [], true⟩ [1, 2] [9]).1.1,
   (claim_c9_vec_append_only ⟨id, id⟩
      ⟨some ⟨2, 1, 2⟩, some .encrypting, [0], [3, 4], [], true⟩ [1, 2] [9]).1.2
     ⟨some ⟨2, 1, 2⟩, some .encrypting, [0], [2, 6], [], true⟩ 2 (by decide)⟩

set_option maxRecDepth 100000 in
/-- Counterexample to claim C7 as stated: the claimed plaintext block
`6bc1bee22e409f96e93d7e117393172` and ciphertext `7649abac8119b246cee98e9b12e9197`
have 31 hex digits each, so neither denotes a byte string (hex decoding
fails on an odd digit count); moreover the nearest even truncation is a
15-byte input, which the padding-disabled encrypt lifecycle rejects with an
engine error instead of producing any ciphertext. -/
theorem claim_c7_kat_counterexample :
    hexDecode "6bc1bee22e409f96e93d7e117393172" = none ∧
    hexDecode "7649abac8119b246cee98e9b12e9197" = none ∧
    encryptLifecycle (aesPrim ((hexDecode "2b7e151628aed2a6abf7158809cf4f3c").getD []))
      aes128CbcDesc ((hexDecode "2b7e151628aed2a6abf7158809cf4f3c").getD [])
      ((hexDecode "000102030405060708090a0b0c0d0e0f").getD []) false
      ((hexDecode "6bc1bee22e409f96e93d7e11739317").getD []) = .engineErr := by
  refine ⟨by decide, by decide, ?_⟩
  decide

set_option maxRecDepth 100000 in
/-- Claim C7 (amended): encrypting the 16-byte plaintext block
`6bc1bee22e409f96e93d7e117393172a` with AES-128 in CBC mode under key
`2b7e151628aed2a6abf7158809cf4f3c` and IV `000102030405060708090a0b0c0d0e0f`,
padding disabled, via the `encrypt_init` / `cipher_update` / `cipher_final`
lifecycle, yields the ciphertext `7649abac8119b246cee98e9b12e9197d`
(NIST SP 800-38A, first block; the spec's strings dropped the final hex
digit of both values). -/
theorem claim_c7_aes128_cbc_kat :
    encryptLifecycle (aesPrim ((hexDecode "2b7e151628aed2a6abf7158809cf4f3c").getD []))
      aes128CbcDesc ((hexDecode "2b7e151628aed2a6abf7158809cf4f3c").getD [])
      ((hexDecode "000102030405060708090a0b0c0d0e0f").getD []) false
      ((hexDecode "6bc1bee22e409f96e93d7e117393172a").getD [])
    = .ok ((hexDecode "7649abac8119b246cee98e9b12e9197d").getD []) := by
  decide
